import Mathlib

/-!
Verification of the raster-to-vector core of `bentu404_cursors/png2svg.py`
against its specification: run extraction, greedy vertical merging of runs
into rectangles, SVG rectangle emission, and the batch-mode driver.

Machine integers and floats of the source are embedded as follows: channel
bytes are `ℕ` (the code never exceeds 255 and performs no arithmetic on
them), the opacity float `a / 255.0` is represented by the alpha byte `a`
itself (the map is injective and monotone on bytes, so the code's equality
and `< 1.0` tests coincide with tests on `a`), and emitted coordinates are
exact rationals (every value the code produces — integers plus `0.5` —
is exactly representable in its binary floats).
-/

namespace Png2Svg

/-- An RGB color. The code stores colors as the string `rgb(r,g,b)`
(line 52); the formatting map is injective, so string equality in the
code coincides with componentwise equality here. -/
abbrev Color := ℕ × ℕ × ℕ

/-- A non-transparent grid cell: the `(color, opacity)` pair the code stores
(line 53), with the opacity float `a / 255.0` represented by the alpha
byte `a`. -/
abbrev Pix := Color × ℕ

/-- The 2D grid the code builds (lines 38-54): each cell is `None` for a
fully transparent pixel, otherwise `(color, opacity)`. Cells are only ever
read at `y < height`, `x < width`. -/
structure PixelGrid where
  width : ℕ
  height : ℕ
  pix : ℕ → ℕ → Option Pix

/-- Raw RGBA samples of one pixel as read from `export_pixels` (lines 42-46). -/
structure RawImage where
  width : ℕ
  height : ℕ
  px : ℕ → ℕ → ℕ × ℕ × ℕ × ℕ

/-- Grid building for one pixel (lines 48-53): alpha `0` becomes `None`,
otherwise the cell keeps the color and the alpha byte. -/
def buildPix (p : ℕ × ℕ × ℕ × ℕ) : Option Pix :=
  if p.2.2.2 = 0 then none else some ((p.1, p.2.1, p.2.2.1), p.2.2.2)

/-- The grid-building loop (lines 38-54). -/
def buildGrid (img : RawImage) : PixelGrid :=
  ⟨img.width, img.height, fun y x => buildPix (img.px y x)⟩

/-- A horizontal run `(y, start_x, end_x, color, opacity)` (line 74). -/
structure Run where
  row : ℕ
  x0 : ℕ
  x1 : ℕ
  color : Color
  alpha : ℕ
deriving DecidableEq, Repr

/-- A rectangle `(start_x, y, width, height, color, opacity)` (line 104). -/
structure Rect where
  x : ℕ
  y : ℕ
  w : ℕ
  h : ℕ
  color : Color
  alpha : ℕ
deriving DecidableEq, Repr

/-- The inner loop of run extraction (lines 70-71): starting at `x`, advance
while still inside the row and the cell equals `p`; return the first column
where the scan stops. `fuel` bounds the number of iterations of the
`while`; every call supplies at least `width - x`, which the loop can
never exceed. -/
def runEnd (g : PixelGrid) (y : ℕ) (p : Pix) : ℕ → ℕ → ℕ
  | 0, x => x
  | fuel + 1, x =>
    if x < g.width ∧ g.pix y x = some p then runEnd g y p fuel (x + 1) else x

/-- The per-row extraction loop (lines 59-74): skip transparent cells, open a
run at the first non-transparent cell, extend it with `runEnd`, emit
`(y, start_x, end_x, color, opacity)` and continue at the run's end.
`fuel` bounds the iterations of the `while x < width` loop; `width`
always suffices since `x` strictly increases. -/
def extractRowAux (g : PixelGrid) (y : ℕ) : ℕ → ℕ → List Run
  | 0, _ => []
  | fuel + 1, x =>
    if x < g.width then
      match g.pix y x with
      | none => extractRowAux g y fuel (x + 1)
      | some p =>
        let e := runEnd g y p g.width (x + 1)
        ⟨y, x, e, p.1, p.2⟩ :: extractRowAux g y fuel e
    else []

/-- One row of the first phase (lines 58-74). -/
def extractRow (g : PixelGrid) (y : ℕ) : List Run :=
  extractRowAux g y g.width 0

/-- The first phase, `horizontal_runs` (lines 57-74): all rows top to bottom,
each row scanned left to right. -/
def extractRuns (g : PixelGrid) : List Run :=
  (List.range g.height).flatMap (extractRow g)

/-- The match test of the vertical merge (lines 90-96): the candidate sits at
the target row and agrees with the seed in span, color and opacity. -/
def runMatch (t x0 x1 : ℕ) (c : Color) (a : ℕ) (r : Run) : Prop :=
  r.row = t ∧ r.x0 = x0 ∧ r.x1 = x1 ∧ r.color = c ∧ r.alpha = a

instance (t x0 x1 : ℕ) (c : Color) (a : ℕ) (r : Run) :
    Decidable (runMatch t x0 x1 c a r) := by
  unfold runMatch; infer_instance

/-- The inner vertical-merge scan of `png2svg` (lines 83-101): one forward
pass over the pending list with index `i`; a run matching row `y + h` and
the seed's span, color and opacity is popped and the height grows (the
index stays), any other run is kept and the index advances — so each
element is examined exactly once, against the then-current height. -/
def scanMerge (y x0 x1 : ℕ) (c : Color) (a : ℕ) : ℕ → List Run → ℕ × List Run
  | h, [] => (h, [])
  | h, r :: rs =>
    if runMatch (y + h) x0 x1 c a r then
      scanMerge y x0 x1 c a (h + 1) rs
    else
      let p := scanMerge y x0 x1 c a h rs
      (p.1, r :: p.2)

/-- The outer merge loop (lines 78-104): pop the first pending run as seed,
scan the remainder for vertical extensions, finalize
`(start_x, y, end_x - start_x, height, color, opacity)`. `fuel` bounds
the number of seeds; the initial list length always suffices since the
scan never lengthens the list. -/
def mergeAux : ℕ → List Run → List Rect
  | 0, _ => []
  | _ + 1, [] => []
  | fuel + 1, r :: rs =>
    let p := scanMerge r.row r.x0 r.x1 r.color r.alpha 1 rs
    ⟨r.x0, r.row, r.x1 - r.x0, p.1, r.color, r.alpha⟩ :: mergeAux fuel p.2

/-- The second phase, `rectangles` (lines 77-104). -/
def mergeRects (l : List Run) : List Rect := mergeAux l.length l

/-- The whole decomposition: extraction followed by merging. -/
def pipeline (g : PixelGrid) : List Rect := mergeRects (extractRuns g)

/-- Follows the spec's words (§4.3 step 3), for comparison with `scanMerge`:
search the pending runs from the front for one at the target row with the
seed's span, color and opacity, and remove the first such run. -/
def findRemove (t x0 x1 : ℕ) (c : Color) (a : ℕ) : List Run → Option (List Run)
  | [] => none
  | r :: rs =>
    if runMatch t x0 x1 c a r then some rs
    else (findRemove t x0 x1 c a rs).map (r :: ·)

/-- Follows the spec's words (§4.3 step 3): repeatedly search all remaining
pending runs at row `y + h`; on a hit remove it, grow the height and
repeat the search at the new height. `fuel` bounds the number of removals;
the pending list's length always suffices. -/
def specGrow (y x0 x1 : ℕ) (c : Color) (a : ℕ) : ℕ → ℕ → List Run → ℕ × List Run
  | 0, h, l => (h, l)
  | fuel + 1, h, l =>
    match findRemove (y + h) x0 x1 c a l with
    | some l' => specGrow y x0 x1 c a fuel (h + 1) l'
    | none => (h, l)

/-- Follows the spec's words (§4.3 steps 2-4): FIFO over seeds, each seed
grown by `specGrow`, rectangles finalized in seed order. -/
def specMergeAux : ℕ → List Run → List Rect
  | 0, _ => []
  | _ + 1, [] => []
  | fuel + 1, r :: rs =>
    let p := specGrow r.row r.x0 r.x1 r.color r.alpha rs.length 1 rs
    ⟨r.x0, r.row, r.x1 - r.x0, p.1, r.color, r.alpha⟩ :: specMergeAux fuel p.2

/-- The spec's merger (§4.3), to be compared with `mergeRects`. -/
def specMerge (l : List Run) : List Rect := specMergeAux l.length l

/-- Membership of a cell `(row, column)` in a run's footprint. -/
def runMem (r : Run) (p : ℕ × ℕ) : Prop :=
  p.1 = r.row ∧ r.x0 ≤ p.2 ∧ p.2 < r.x1

instance (r : Run) (p : ℕ × ℕ) : Decidable (runMem r p) := by
  unfold runMem; infer_instance

/-- Membership of a cell `(row, column)` in a rectangle's footprint. -/
def rectMem (t : Rect) (p : ℕ × ℕ) : Prop :=
  t.y ≤ p.1 ∧ p.1 < t.y + t.h ∧ t.x ≤ p.2 ∧ p.2 < t.x + t.w

instance (t : Rect) (p : ℕ × ℕ) : Decidable (rectMem t p) := by
  unfold rectMem; infer_instance

/-- The cell `(row, column)` is inside the grid and not transparent. -/
def nonTransparent (g : PixelGrid) (p : ℕ × ℕ) : Prop :=
  p.1 < g.height ∧ p.2 < g.width ∧ g.pix p.1 p.2 ≠ none

instance (g : PixelGrid) (p : ℕ × ℕ) : Decidable (nonTransparent g p) := by
  unfold nonTransparent; infer_instance

/-- Strong row order guaranteed by extraction: strictly lower row, or the
same row with the earlier run ending at or before the later one starts. -/
def runBefore (r s : Run) : Prop :=
  r.row < s.row ∨ (r.row = s.row ∧ r.x1 ≤ s.x0)

/-- Canonical output order of extraction as stated by the spec: row
ascending, then start column ascending. -/
def runOrd (r s : Run) : Prop :=
  r.row < s.row ∨ (r.row = s.row ∧ r.x0 < s.x0)

/-- One emitted `<rect>` element (lines 107-124), coordinates as exact
rationals. `fillOpacity`/`strokeOpacity` are `none` when the code does not
set the corresponding attribute (lines 122-124). -/
structure SVGRect where
  x : ℚ
  y : ℚ
  w : ℚ
  h : ℚ
  fill : Color
  stroke : Color
  strokeW : ℚ
  fillOpacity : Option ℚ
  strokeOpacity : Option ℚ
deriving DecidableEq, Repr

/-- The opacity value the code computes at line 51: `a / 255.0`. -/
def opacityQ (a : ℕ) : ℚ := a / 255

/-- Emission of one rectangle (lines 107-124): position `(x*scale, y*scale)`,
size `(w*scale + 0.5, h*scale + 0.5)`, fill and stroke the rectangle's
color, stroke width `0.5`, and both opacity attributes exactly when the
opacity is below `1.0`. -/
def emitRect (scale : ℕ) (r : Rect) : SVGRect :=
  { x := r.x * scale
    y := r.y * scale
    w := r.w * scale + 1/2
    h := r.h * scale + 1/2
    fill := r.color
    stroke := r.color
    strokeW := 1/2
    fillOpacity := if opacityQ r.alpha < 1 then some (opacityQ r.alpha) else none
    strokeOpacity := if opacityQ r.alpha < 1 then some (opacityQ r.alpha) else none }

/-- The emission loop over all merged rectangles (lines 107-124). -/
def emitRects (scale : ℕ) (l : List Rect) : List SVGRect :=
  l.map (emitRect scale)

/-- Lowercasing of an ASCII file name, as `file.lower()` (line 159). -/
def lowerName (s : List Char) : List Char := s.map Char.toLower

/-- The conversion test of line 159: `file.lower().endswith(".png")`. -/
def isPngName (s : List Char) : Bool :=
  List.isSuffixOf ".png".toList (lowerName s)

/-- Python `str.replace` for a non-empty pattern: replace every
non-overlapping occurrence, leftmost first, scanning left to right.
`fuel` bounds the scan; the subject's length always suffices. -/
def replaceFuel (old new : List Char) : ℕ → List Char → List Char
  | 0, s => s
  | fuel + 1, s =>
    match s with
    | [] => []
    | c :: cs =>
      if old ≠ [] ∧ List.isPrefixOf old (c :: cs) then
        new ++ replaceFuel old new fuel (List.drop old.length (c :: cs))
      else
        c :: replaceFuel old new fuel cs

/-- Python `s.replace(old, new)` for non-empty `old`. -/
def pyReplace (s old new : List Char) : List Char := replaceFuel old new s.length s

/-- Destination name derivation of line 161:
`dest.replace(".png", ".svg").replace(".PNG", ".svg")`. -/
def svgName (dest : List Char) : List Char :=
  pyReplace (pyReplace dest ".png".toList ".svg".toList) ".PNG".toList ".svg".toList

/-- What the per-file branch of `process_directory` (lines 159-166) decides
for one file name: convert to the derived destination, or copy unchanged. -/
inductive FileAction where
  | convert (dest : List Char)
  | copy (dest : List Char)
deriving DecidableEq, Repr

/-- The per-file branch of `process_directory` (lines 159-166). -/
def handleFile (name : List Char) : FileAction :=
  if isPngName name then .convert (svgName name) else .copy name

/-- The batch loop of `process_directory` (lines 146-166) with the per-file
conversion abstracted by its outcome `ok`: the loop body has no exception
handler, so a conversion that raises propagates out of the loop and ends
the whole walk. Returns the files whose processing completed and whether
the run reached the end of the work list. -/
def processFiles (ok : List Char → Bool) : List (List Char) → List (List Char) × Bool
  | [] => ([], true)
  | f :: fs =>
    if ok f then
      let p := processFiles ok fs
      (f :: p.1, p.2)
    else ([], false)

/-- A flat file-system state: a path is mapped to its contents, or `none`
when no file exists there. -/
def FS := List Char → Option (List Char)

/-- Point update of a file-system state. -/
def fsUpdate (fs : FS) (path content : List Char) : FS :=
  fun q => if q = path then some content else fs q

/-- The write step of lines 137-138: `open(svg_path, "w")` truncates or
creates the destination in place, then `write` emits the document text.
A failure after `k` characters (disk full, quota) leaves the prefix
written so far at the destination; `none` as failure point means the
write completes. The returned flag is whether the write succeeded. -/
def writeDirect (fs : FS) (path content : List Char) (failAfter : Option ℕ) :
    FS × Bool :=
  match failAfter with
  | none => (fsUpdate fs path content, true)
  | some k => (fsUpdate fs path (content.take k), false)

/-! ### Lemmas about the inner `while` loop of run extraction -/

theorem le_runEnd (g : PixelGrid) (y : ℕ) (p : Pix) :
    ∀ fuel x, x ≤ runEnd g y p fuel x := by
  intro fuel
  induction fuel with
  | zero => intro x; simp [runEnd]
  | succ n ih =>
    intro x
    rw [runEnd]
    split
    · exact (Nat.le_succ x).trans (ih (x + 1))
    · exact Nat.le_refl x

theorem runEnd_le_width (g : PixelGrid) (y : ℕ) (p : Pix) :
    ∀ fuel x, x ≤ g.width → runEnd g y p fuel x ≤ g.width := by
  intro fuel
  induction fuel with
  | zero => intro x hx; simpa [runEnd] using hx
  | succ n ih =>
    intro x hx
    rw [runEnd]
    split
    · next hc => exact ih (x + 1) hc.1
    · exact hx

theorem runEnd_pix (g : PixelGrid) (y : ℕ) (p : Pix) :
    ∀ fuel x col, x ≤ col → col < runEnd g y p fuel x → g.pix y col = some p := by
  intro fuel
  induction fuel with
  | zero =>
    intro x col hxc hcr
    rw [runEnd] at hcr
    omega
  | succ n ih =>
    intro x col hxc hcr
    rw [runEnd] at hcr
    split at hcr
    · next hc =>
      rcases Nat.eq_or_lt_of_le hxc with h | h
      · exact h ▸ hc.2
      · exact ih (x + 1) col h hcr
    · omega

theorem runEnd_stop (g : PixelGrid) (y : ℕ) (p : Pix) :
    ∀ fuel x, g.width ≤ x + fuel →
      g.width ≤ runEnd g y p fuel x ∨ g.pix y (runEnd g y p fuel x) ≠ some p := by
  intro fuel
  induction fuel with
  | zero =>
    intro x hx
    rw [runEnd]
    exact Or.inl (by omega)
  | succ n ih =>
    intro x hx
    rw [runEnd]
    split
    · exact ih (x + 1) (by omega)
    · next hc =>
      rcases Decidable.not_and_iff_or_not.mp hc with h | h
      · exact Or.inl (by omega)
      · exact Or.inr h

/-! ### Shape, maximality and coverage of one extracted row -/

/-- Every run emitted by the row loop lies in row `y`, starts at or after the
scan position, is non-empty, stops inside the row, consists of pixels all
equal to its `(color, opacity)`, and cannot be extended to the right. -/
theorem extractRowAux_mem (g : PixelGrid) (y : ℕ) :
    ∀ fuel x, ∀ r ∈ extractRowAux g y fuel x,
      r.row = y ∧ x ≤ r.x0 ∧ r.x0 < r.x1 ∧ r.x1 ≤ g.width ∧
      (∀ col, r.x0 ≤ col → col < r.x1 → g.pix y col = some (r.color, r.alpha)) ∧
      (r.x1 = g.width ∨ g.pix y r.x1 ≠ some (r.color, r.alpha)) := by
  intro fuel
  induction fuel with
  | zero => intro x r hr; simp [extractRowAux] at hr
  | succ n ih =>
    intro x r hr
    rw [extractRowAux] at hr
    by_cases hx : x < g.width
    · rw [if_pos hx] at hr
      cases hpx : g.pix y x with
      | none =>
        rw [hpx] at hr
        obtain ⟨h1, h2, h3⟩ := ih (x + 1) r hr
        exact ⟨h1, by omega, h3⟩
      | some p =>
        rw [hpx] at hr
        rcases List.mem_cons.mp hr with rfl | hr
        · refine ⟨rfl, Nat.le_refl x, ?_, ?_, ?_, ?_⟩
          · exact Nat.lt_of_lt_of_le (Nat.lt_succ_self x) (le_runEnd g y p g.width (x + 1))
          · exact runEnd_le_width g y p g.width (x + 1) hx
          · intro col hc1 hc2
            rcases Nat.eq_or_lt_of_le hc1 with h | h
            · simpa [← h] using hpx
            · exact runEnd_pix g y p g.width (x + 1) col h hc2
          · rcases runEnd_stop g y p g.width (x + 1) (by omega) with h | h
            · exact Or.inl (Nat.le_antisymm (runEnd_le_width g y p g.width (x + 1) hx) h)
            · exact Or.inr h
        · obtain ⟨h1, h2, h3⟩ := ih (runEnd g y p g.width (x + 1)) r hr
          have := le_runEnd g y p g.width (x + 1)
          exact ⟨h1, by omega, h3⟩
    · rw [if_neg hx] at hr
      simp at hr

/-- Left-maximality: a run cannot be extended to the left either. The
invariant on the scan position `x` is what the loop maintains: at the
left edge, past the row, or the previous cell differs from the current
one or is transparent. -/
theorem extractRowAux_leftMax (g : PixelGrid) (y : ℕ) :
    ∀ fuel x,
      (x = 0 ∨ g.width ≤ x ∨ g.pix y (x - 1) ≠ g.pix y x ∨ g.pix y (x - 1) = none) →
      ∀ r ∈ extractRowAux g y fuel x,
        r.x0 = 0 ∨ g.pix y (r.x0 - 1) ≠ some (r.color, r.alpha) := by
  intro fuel
  induction fuel with
  | zero => intro x _ r hr; simp [extractRowAux] at hr
  | succ n ih =>
    intro x hinv r hr
    rw [extractRowAux] at hr
    by_cases hx : x < g.width
    · rw [if_pos hx] at hr
      cases hpx : g.pix y x with
      | none =>
        rw [hpx] at hr
        refine ih (x + 1) ?_ r hr
        right; right; right
        simpa using hpx
      | some p =>
        rw [hpx] at hr
        rcases List.mem_cons.mp hr with rfl | hr
        · rcases hinv with h | h | h | h
          · exact Or.inl h
          · omega
          · exact Or.inr (by rw [hpx] at h; simpa using h)
          · exact Or.inr (by rw [h]; simp)
        · refine ih (runEnd g y p g.width (x + 1)) ?_ r hr
          set e := runEnd g y p g.width (x + 1) with he
          by_cases hew : e < g.width
          · right; right; left
            have hprev : g.pix y (e - 1) = some p := by
              have hxe : x + 1 ≤ e := le_runEnd g y p g.width (x + 1)
              rcases Nat.eq_or_lt_of_le hxe with h | h
              · have : e - 1 = x := by omega
                rw [this, hpx]
              · exact runEnd_pix g y p g.width (x + 1) (e - 1) (by omega) (by omega)
            rcases runEnd_stop g y p g.width (x + 1) (by omega) with h | h
            · omega
            · rw [hprev]; exact fun hc => h (by rw [← he]; exact hc.symm)
          · right; left; omega
    · rw [if_neg hx] at hr
      simp at hr

/-- Coverage of one row: with enough fuel, the cells covered by the emitted
runs are exactly the non-transparent cells at columns `≥ x`. -/
theorem extractRowAux_cover (g : PixelGrid) (y : ℕ) :
    ∀ fuel x, g.width ≤ x + fuel →
      ∀ col, (x ≤ col ∧ col < g.width ∧ g.pix y col ≠ none) ↔
        ∃ r ∈ extractRowAux g y fuel x, r.x0 ≤ col ∧ col < r.x1 := by
  intro fuel
  induction fuel with
  | zero =>
    intro x hfx col
    simp only [extractRowAux]
    simp only [List.not_mem_nil, false_and, exists_false, iff_false]
    omega
  | succ n ih =>
    intro x hfx col
    rw [extractRowAux]
    by_cases hx : x < g.width
    · rw [if_pos hx]
      cases hpx : g.pix y x with
      | none =>
        rw [← ih (x + 1) (by omega) col]
        constructor
        · rintro ⟨h1, h2, h3⟩
          refine ⟨?_, h2, h3⟩
          rcases Nat.eq_or_lt_of_le h1 with h | h
          · exact absurd (h ▸ hpx) h3
          · exact h
        · rintro ⟨h1, h2, h3⟩
          exact ⟨by omega, h2, h3⟩
      | some p =>
        set e := runEnd g y p g.width (x + 1) with he
        constructor
        · rintro ⟨h1, h2, h3⟩
          by_cases hce : col < e
          · exact ⟨⟨y, x, e, p.1, p.2⟩, List.mem_cons_self _ _, h1, hce⟩
          · obtain ⟨r, hr, hcr⟩ :=
              (ih e (by have := le_runEnd g y p g.width (x + 1); omega) col).mp
                ⟨by omega, h2, h3⟩
            exact ⟨r, List.mem_cons_of_mem _ hr, hcr⟩
        · rintro ⟨r, hr, hcr⟩
          rcases List.mem_cons.mp hr with rfl | hr
          · simp only at hcr
            refine ⟨hcr.1, ?_, ?_⟩
            · have : e ≤ g.width := runEnd_le_width g y p g.width (x + 1) hx
              omega
            · have : g.pix y col = some p := by
                rcases Nat.eq_or_lt_of_le hcr.1 with h | h
                · rw [← h, hpx]
                · exact runEnd_pix g y p g.width (x + 1) col h hcr.2
              simp [this]
          · obtain ⟨h1, h2, h3⟩ :=
              (ih e (by have := le_runEnd g y p g.width (x + 1); omega) col).mpr ⟨r, hr, hcr⟩
            have := le_runEnd g y p g.width (x + 1)
            exact ⟨by omega, h2, h3⟩
    · rw [if_neg hx]
      simp only [List.not_mem_nil, false_and, exists_false, iff_false]
      omega

/-- The runs of one row are emitted left to right without overlap. -/
theorem extractRowAux_pairwise (g : PixelGrid) (y : ℕ) :
    ∀ fuel x, List.Pairwise (fun r s => r.x1 ≤ s.x0) (extractRowAux g y fuel x) := by
  intro fuel
  induction fuel with
  | zero => intro x; simp [extractRowAux]
  | succ n ih =>
    intro x
    rw [extractRowAux]
    by_cases hx : x < g.width
    · rw [if_pos hx]
      cases hpx : g.pix y x with
      | none => exact ih (x + 1)
      | some p =>
        refine List.Pairwise.cons ?_ (ih _)
        intro r hr
        exact (extractRowAux_mem g y n (runEnd g y p g.width (x + 1)) r hr).2.1
    · rw [if_neg hx]; exact List.Pairwise.nil

/-! ### Properties of the full run list `horizontal_runs` -/

/-- Every extracted run lies inside the grid, is non-empty, consists of
identical `(color, opacity)` cells, and is maximal on both sides. -/
theorem extractRuns_mem (g : PixelGrid) :
    ∀ r ∈ extractRuns g, r.row < g.height ∧ r.x0 < r.x1 ∧ r.x1 ≤ g.width ∧
      (∀ col, r.x0 ≤ col → col < r.x1 → g.pix r.row col = some (r.color, r.alpha)) ∧
      (r.x1 = g.width ∨ g.pix r.row r.x1 ≠ some (r.color, r.alpha)) ∧
      (r.x0 = 0 ∨ g.pix r.row (r.x0 - 1) ≠ some (r.color, r.alpha)) := by
  intro r hr
  rw [extractRuns, List.mem_flatMap] at hr
  obtain ⟨y, hy, hry⟩ := hr
  obtain ⟨hrow, _, h3, h4, h5, h6⟩ := extractRowAux_mem g y g.width 0 r hry
  have hleft := extractRowAux_leftMax g y g.width 0 (Or.inl rfl) r hry
  subst hrow
  exact ⟨List.mem_range.mp hy, h3, h4, h5, h6, hleft⟩

/-- The union of the extracted runs' footprints is exactly the set of
non-transparent in-bounds cells. -/
theorem extractRuns_cover (g : PixelGrid) :
    ∀ q : ℕ × ℕ, nonTransparent g q ↔ ∃ r ∈ extractRuns g, runMem r q := by
  intro q
  constructor
  · rintro ⟨h1, h2, h3⟩
    obtain ⟨r, hr, hc⟩ :=
      (extractRowAux_cover g q.1 g.width 0 (by omega) q.2).mp ⟨Nat.zero_le _, h2, h3⟩
    refine ⟨r, ?_, ?_⟩
    · rw [extractRuns, List.mem_flatMap]
      exact ⟨q.1, List.mem_range.mpr h1, hr⟩
    · exact ⟨(extractRowAux_mem g q.1 g.width 0 r hr).1.symm, hc.1, hc.2⟩
  · rintro ⟨r, hr, hm⟩
    rw [extractRuns, List.mem_flatMap] at hr
    obtain ⟨y, hy, hry⟩ := hr
    have hrow := (extractRowAux_mem g y g.width 0 r hry).1
    have hcov :=
      (extractRowAux_cover g y g.width 0 (by omega) q.2).mpr ⟨r, hry, hm.2.1, hm.2.2⟩
    refine ⟨?_, hcov.2.1, ?_⟩
    · rw [hm.1, hrow]; exact List.mem_range.mp hy
    · rw [hm.1, hrow]; exact hcov.2.2

/-- The extracted run list is ordered: strictly increasing rows, and within a
row each run ends at or before the next one starts. -/
theorem extractRuns_pairwise (g : PixelGrid) :
    List.Pairwise runBefore (extractRuns g) := by
  rw [extractRuns, List.pairwise_flatMap]
  constructor
  · intro y _
    refine (extractRowAux_pairwise g y g.width 0).imp_of_mem ?_
    intro r s hr hs h
    have h1 := (extractRowAux_mem g y g.width 0 r hr).1
    have h2 := (extractRowAux_mem g y g.width 0 s hs).1
    exact Or.inr ⟨h1.trans h2.symm, h⟩
  · refine (List.pairwise_lt_range g.height).imp_of_mem ?_
    intro y1 y2 _ _ hlt r hr s hs
    have h1 := (extractRowAux_mem g y1 g.width 0 r hr).1
    have h2 := (extractRowAux_mem g y2 g.width 0 s hs).1
    exact Or.inl (by rw [h1, h2]; exact hlt)

/-- The canonical order of the spec: row ascending, then start column
ascending. -/
theorem extractRuns_ord (g : PixelGrid) :
    List.Pairwise runOrd (extractRuns g) := by
  refine (extractRuns_pairwise g).imp_of_mem ?_
  intro r s hr _ h
  rcases h with h | ⟨h1, h2⟩
  · exact Or.inl h
  · exact Or.inr ⟨h1, Nat.lt_of_lt_of_le (extractRuns_mem g r hr).2.1 h2⟩

/-- Runs listed in the extraction order have pairwise disjoint footprints. -/
theorem extractRuns_disjoint (g : PixelGrid) :
    List.Pairwise (fun r s => ∀ q : ℕ × ℕ, ¬(runMem r q ∧ runMem s q))
      (extractRuns g) := by
  refine (extractRuns_pairwise g).imp_of_mem ?_
  intro r s _ _ h q hq
  obtain ⟨⟨ha1, ha2, ha3⟩, hb1, hb2, hb3⟩ := hq
  rcases h with h | ⟨h1, h2⟩ <;> omega

/-- A fully transparent row produces no runs. -/
theorem extractRowAux_nil (g : PixelGrid) (y : ℕ)
    (hg : ∀ col, col < g.width → g.pix y col = none) :
    ∀ fuel x, extractRowAux g y fuel x = [] := by
  intro fuel
  induction fuel with
  | zero => intro x; simp [extractRowAux]
  | succ n ih =>
    intro x
    rw [extractRowAux]
    by_cases hx : x < g.width
    · rw [if_pos hx, hg x hx]
      exact ih (x + 1)
    · rw [if_neg hx]

/-! ### Lemmas about the vertical-merge scan -/

/-- The runs the scan pops while growing a seed of span `[x0, x1)` at row `y`
from height `h` to height `h'`: one per row `y + h, …, y + h' - 1`, all
with the seed's span, color and opacity. -/
def extRuns (y x0 x1 : ℕ) (c : Color) (a : ℕ) (h h' : ℕ) : List Run :=
  (List.range (h' - h)).map (fun k => ⟨y + h + k, x0, x1, c, a⟩)

theorem extRuns_cons (y x0 x1 : ℕ) (c : Color) (a : ℕ) (h h' : ℕ) (hlt : h < h') :
    extRuns y x0 x1 c a h h' = ⟨y + h, x0, x1, c, a⟩ :: extRuns y x0 x1 c a (h + 1) h' := by
  unfold extRuns
  have h1 : h' - h = (h' - (h + 1)) + 1 := by omega
  rw [h1, List.range_succ_eq_map, List.map_cons, List.map_map]
  refine congrArg₂ _ (by simp) ?_
  refine List.map_congr_left ?_
  intro k _
  simp only [Function.comp_apply]
  refine congrArg (fun n => Run.mk n x0 x1 c a) ?_
  omega

theorem extRuns_mem_iff (y x0 x1 : ℕ) (c : Color) (a : ℕ) (h h' : ℕ) (r : Run) :
    r ∈ extRuns y x0 x1 c a h h' ↔
      (y + h ≤ r.row ∧ r.row < y + h' ∧ r.x0 = x0 ∧ r.x1 = x1 ∧
        r.color = c ∧ r.alpha = a) := by
  unfold extRuns
  simp only [List.mem_map, List.mem_range]
  constructor
  · rintro ⟨k, hk, rfl⟩
    refine ⟨by show y + h ≤ y + h + k; omega, by show y + h + k < y + h'; omega,
      rfl, rfl, rfl, rfl⟩
  · rintro ⟨h1, h2, h3, h4, h5, h6⟩
    refine ⟨r.row - (y + h), by omega, ?_⟩
    have hrow : y + h + (r.row - (y + h)) = r.row := by omega
    rw [hrow, ← h3, ← h4, ← h5, ← h6]

theorem scanMerge_sublist (y x0 x1 : ℕ) (c : Color) (a : ℕ) :
    ∀ l h, (scanMerge y x0 x1 c a h l).2.Sublist l := by
  intro l
  induction l with
  | nil => intro h; simp [scanMerge]
  | cons r rs ih =>
    intro h
    rw [scanMerge]
    split
    · exact (ih (h + 1)).cons r
    · exact (ih h).cons₂ r

theorem scanMerge_height_le (y x0 x1 : ℕ) (c : Color) (a : ℕ) :
    ∀ l h, h ≤ (scanMerge y x0 x1 c a h l).1 := by
  intro l
  induction l with
  | nil => intro h; simp [scanMerge]
  | cons r rs ih =>
    intro h
    rw [scanMerge]
    split
    · exact (Nat.le_succ h).trans (ih (h + 1))
    · exact ih h

/-- Decomposition of the scan: the input list is a permutation of the popped
extension runs followed by the surviving list. -/
theorem scanMerge_perm (y x0 x1 : ℕ) (c : Color) (a : ℕ) :
    ∀ (l : List Run) (h : ℕ),
      List.Perm l (extRuns y x0 x1 c a h (scanMerge y x0 x1 c a h l).1 ++
        (scanMerge y x0 x1 c a h l).2) := by
  intro l
  induction l with
  | nil => intro h; simp [scanMerge, extRuns]
  | cons r rs ih =>
    intro h
    rw [scanMerge]
    split
    · next hm =>
      obtain ⟨m1, m2, m3, m4, m5⟩ := hm
      have hr : r = ⟨y + h, x0, x1, c, a⟩ := by
        cases r; simp_all
      have hh : h + 1 ≤ (scanMerge y x0 x1 c a (h + 1) rs).1 :=
        scanMerge_height_le y x0 x1 c a rs (h + 1)
      rw [extRuns_cons y x0 x1 c a h _ (by omega), hr]
      exact (ih (h + 1)).cons _
    · refine ((ih h).cons r).trans ?_
      exact List.perm_middle.symm

/-- If no pending run matches at the current height, the scan changes
nothing. -/
theorem scanMerge_of_forall_not (y x0 x1 : ℕ) (c : Color) (a : ℕ) :
    ∀ l h, (∀ r ∈ l, ¬ runMatch (y + h) x0 x1 c a r) →
      scanMerge y x0 x1 c a h l = (h, l) := by
  intro l
  induction l with
  | nil => intro h _; simp [scanMerge]
  | cons r rs ih =>
    intro h hl
    rw [scanMerge]
    rw [if_neg (hl r (List.mem_cons_self r rs))]
    rw [ih h (fun s hs => hl s (List.mem_cons_of_mem r hs))]

/-- The scan walks through a prefix with no match at the current height
without touching it. -/
theorem scanMerge_append (y x0 x1 : ℕ) (c : Color) (a : ℕ) :
    ∀ pre l₂ h, (∀ r ∈ pre, ¬ runMatch (y + h) x0 x1 c a r) →
      scanMerge y x0 x1 c a h (pre ++ l₂) =
        ((scanMerge y x0 x1 c a h l₂).1, pre ++ (scanMerge y x0 x1 c a h l₂).2) := by
  intro pre
  induction pre with
  | nil => intro l₂ h _; simp
  | cons r rs ih =>
    intro l₂ h hpre
    rw [List.cons_append, scanMerge]
    rw [if_neg (hpre r (List.mem_cons_self r rs))]
    rw [ih l₂ h (fun s hs => hpre s (List.mem_cons_of_mem r hs))]
    rfl

/-- Every rectangle the merge loop emits has positive width and height,
provided every pending run is non-empty. -/
theorem mergeAux_sizes :
    ∀ fuel l, (∀ r ∈ l, r.x0 < r.x1) →
      ∀ t ∈ mergeAux fuel l, 1 ≤ t.w ∧ 1 ≤ t.h := by
  intro fuel
  induction fuel with
  | zero => intro l _ t ht; simp [mergeAux] at ht
  | succ n ih =>
    intro l hl t ht
    cases l with
    | nil => simp [mergeAux] at ht
    | cons r rs =>
      rw [mergeAux] at ht
      rcases List.mem_cons.mp ht with rfl | ht
      · constructor
        · have := hl r (List.mem_cons_self r rs)
          simp only
          omega
        · exact scanMerge_height_le r.row r.x0 r.x1 r.color r.alpha rs 1
      · refine ih _ ?_ t ht
        intro s hs
        exact hl s (List.mem_cons_of_mem r
          ((scanMerge_sublist r.row r.x0 r.x1 r.color r.alpha rs 1).mem hs))

/-- Footprint of a finalized rectangle: exactly the seed run's cells together
with the cells of the popped extension runs. -/
theorem rect_cells (r : Run) (h' : ℕ) (hle : r.x0 ≤ r.x1) (hh : 1 ≤ h') (q : ℕ × ℕ) :
    rectMem ⟨r.x0, r.row, r.x1 - r.x0, h', r.color, r.alpha⟩ q ↔
      runMem r q ∨ ∃ m ∈ extRuns r.row r.x0 r.x1 r.color r.alpha 1 h', runMem m q := by
  unfold rectMem runMem
  dsimp only
  constructor
  · rintro ⟨h1, h2, h3, h4⟩
    by_cases hq : q.1 = r.row
    · exact Or.inl ⟨hq, h3, by omega⟩
    · right
      refine ⟨⟨q.1, r.x0, r.x1, r.color, r.alpha⟩, ?_, rfl, h3,
        by show q.2 < r.x1; omega⟩
      rw [extRuns_mem_iff]
      exact ⟨by show r.row + 1 ≤ q.1; omega, by show q.1 < r.row + h'; omega,
        rfl, rfl, rfl, rfl⟩
  · rintro (⟨h1, h2, h3⟩ | ⟨m, hm, hq1, hq2, hq3⟩)
    · exact ⟨by omega, by omega, h2, by omega⟩
    · rw [extRuns_mem_iff] at hm
      obtain ⟨a1, a2, a3, a4, a5, a6⟩ := hm
      exact ⟨by omega, by omega, by omega, by omega⟩

theorem perm_exists_mem {α : Type} {l₁ l₂ : List α} (h : List.Perm l₁ l₂)
    (p : α → Prop) : (∃ x ∈ l₁, p x) ↔ (∃ x ∈ l₂, p x) := by
  constructor
  · rintro ⟨x, hx, hp⟩; exact ⟨x, h.mem_iff.mp hx, hp⟩
  · rintro ⟨x, hx, hp⟩; exact ⟨x, h.mem_iff.mpr hx, hp⟩

theorem exists_mem_append_iff {α : Type} {l₁ l₂ : List α} (p : α → Prop) :
    (∃ x ∈ l₁ ++ l₂, p x) ↔ (∃ x ∈ l₁, p x) ∨ (∃ x ∈ l₂, p x) := by
  simp [List.mem_append, or_and_right, exists_or]

/-- Coverage preservation: with enough fuel, the merged rectangles cover
exactly the cells covered by the pending runs. -/
theorem mergeAux_cover :
    ∀ fuel l, l.length ≤ fuel → (∀ r ∈ l, r.x0 ≤ r.x1) →
      ∀ q : ℕ × ℕ, (∃ t ∈ mergeAux fuel l, rectMem t q) ↔ ∃ r ∈ l, runMem r q := by
  intro fuel
  induction fuel with
  | zero =>
    intro l hl _ q
    rw [List.length_eq_zero.mp (Nat.le_zero.mp hl)]
    simp [mergeAux]
  | succ n ih =>
    intro l hl hle q
    cases l with
    | nil => simp [mergeAux]
    | cons r rs =>
      rw [mergeAux]
      have hP := scanMerge_perm r.row r.x0 r.x1 r.color r.alpha rs 1
      have hsub := scanMerge_sublist r.row r.x0 r.x1 r.color r.alpha rs 1
      have hh1 := scanMerge_height_le r.row r.x0 r.x1 r.color r.alpha rs 1
      have hlen : (scanMerge r.row r.x0 r.x1 r.color r.alpha 1 rs).2.length ≤ n :=
        le_trans hsub.length_le (by simpa using hl)
      have hle2 : ∀ s ∈ (scanMerge r.row r.x0 r.x1 r.color r.alpha 1 rs).2,
          s.x0 ≤ s.x1 :=
        fun s hs => hle s (List.mem_cons_of_mem r (hsub.mem hs))
      rw [List.exists_mem_cons_iff, List.exists_mem_cons_iff]
      rw [ih _ hlen hle2 q]
      rw [rect_cells r _ (hle r (List.mem_cons_self r rs)) hh1 q]
      rw [or_assoc]
      refine or_congr_right ?_
      rw [← exists_mem_append_iff]
      exact (perm_exists_mem hP _).symm

/-- Every cell of a merged rectangle is a cell of some pending run with the
rectangle's color and opacity. -/
theorem mergeAux_colors :
    ∀ fuel l, (∀ r ∈ l, r.x0 ≤ r.x1) →
      ∀ t ∈ mergeAux fuel l, ∀ q : ℕ × ℕ, rectMem t q →
        ∃ r ∈ l, runMem r q ∧ r.color = t.color ∧ r.alpha = t.alpha := by
  intro fuel
  induction fuel with
  | zero => intro l _ t ht; simp [mergeAux] at ht
  | succ n ih =>
    intro l hle t ht q hq
    cases l with
    | nil => simp [mergeAux] at ht
    | cons r rs =>
      rw [mergeAux] at ht
      have hP := scanMerge_perm r.row r.x0 r.x1 r.color r.alpha rs 1
      have hsub := scanMerge_sublist r.row r.x0 r.x1 r.color r.alpha rs 1
      have hh1 := scanMerge_height_le r.row r.x0 r.x1 r.color r.alpha rs 1
      rcases List.mem_cons.mp ht with rfl | ht
      · rcases (rect_cells r _ (hle r (List.mem_cons_self r rs)) hh1 q).mp hq with
          h | ⟨m, hm, hmq⟩
        · exact ⟨r, List.mem_cons_self r rs, h, rfl, rfl⟩
        · have hmem : m ∈ rs :=
            hP.mem_iff.mpr (List.mem_append.mpr (Or.inl hm))
          rw [extRuns_mem_iff] at hm
          exact ⟨m, List.mem_cons_of_mem r hmem, hmq, hm.2.2.2.2.1, hm.2.2.2.2.2⟩
      · obtain ⟨s, hs, hsq, hsc, hsa⟩ := ih _
          (fun s hs => hle s (List.mem_cons_of_mem r (hsub.mem hs))) t ht q hq
        exact ⟨s, List.mem_cons_of_mem r (hsub.mem hs), hsq, hsc, hsa⟩

/-- Disjointness preservation: if the pending runs have pairwise disjoint
footprints, so do the merged rectangles. -/
theorem mergeAux_disjoint :
    ∀ fuel l, (∀ r ∈ l, r.x0 ≤ r.x1) →
      List.Pairwise (fun r s => ∀ q : ℕ × ℕ, ¬(runMem r q ∧ runMem s q)) l →
      List.Pairwise (fun t u => ∀ q : ℕ × ℕ, ¬(rectMem t q ∧ rectMem u q))
        (mergeAux fuel l) := by
  intro fuel
  induction fuel with
  | zero => intro l _ _; simp [mergeAux]
  | succ n ih =>
    intro l hle hd
    cases l with
    | nil => simp [mergeAux]
    | cons r rs =>
      rw [mergeAux]
      have hP := scanMerge_perm r.row r.x0 r.x1 r.color r.alpha rs 1
      have hsub := scanMerge_sublist r.row r.x0 r.x1 r.color r.alpha rs 1
      have hh1 := scanMerge_height_le r.row r.x0 r.x1 r.color r.alpha rs 1
      have hsymm : ∀ {x y : Run},
          (∀ q : ℕ × ℕ, ¬(runMem x q ∧ runMem y q)) →
          ∀ q : ℕ × ℕ, ¬(runMem y q ∧ runMem x q) :=
        fun h q hq => h q ⟨hq.2, hq.1⟩
      have hdtail : List.Pairwise (fun r s => ∀ q : ℕ × ℕ, ¬(runMem r q ∧ runMem s q))
          rs := (List.pairwise_cons.mp hd).2
      have hdperm := ((List.Perm.pairwise_iff hsymm hP).mp hdtail)
      rw [List.pairwise_append] at hdperm
      refine List.Pairwise.cons ?_ (ih _ (fun s hs =>
        hle s (List.mem_cons_of_mem r (hsub.mem hs))) (hdtail.sublist hsub))
      intro u hu q hq
      obtain ⟨s, hs, hsq, _, _⟩ := mergeAux_colors n _ (fun s hs =>
        hle s (List.mem_cons_of_mem r (hsub.mem hs))) u hu q hq.2
      rcases (rect_cells r _ (hle r (List.mem_cons_self r rs)) hh1 q).mp hq.1 with
        h | ⟨m, hm, hmq⟩
      · exact (List.pairwise_cons.mp hd).1 s (hsub.mem hs) q ⟨h, hsq⟩
      · exact hdperm.2.2 m hm s hs q ⟨hmq, hsq⟩

/-! ### Equivalence of the code's single forward scan with the spec's
restarting search -/

theorem findRemove_eq_none (t x0 x1 : ℕ) (c : Color) (a : ℕ) :
    ∀ l : List Run, findRemove t x0 x1 c a l = none ↔
      ∀ r ∈ l, ¬ runMatch t x0 x1 c a r := by
  intro l
  induction l with
  | nil => simp [findRemove]
  | cons r rs ih =>
    rw [findRemove]
    by_cases hm : runMatch t x0 x1 c a r
    · rw [if_pos hm]
      simp only [reduceCtorEq, false_iff, not_forall]
      exact ⟨r, List.mem_cons_self r rs, not_not_intro hm⟩
    · rw [if_neg hm]
      simp only [Option.map_eq_none', ih, List.mem_cons]
      constructor
      · rintro h s (rfl | hs)
        · exact hm
        · exact h s hs
      · intro h s hs
        exact h s (Or.inr hs)

theorem findRemove_some (t x0 x1 : ℕ) (c : Color) (a : ℕ) :
    ∀ l l', findRemove t x0 x1 c a l = some l' →
      ∃ pre m post, l = pre ++ m :: post ∧ l' = pre ++ post ∧
        runMatch t x0 x1 c a m ∧ ∀ s ∈ pre, ¬ runMatch t x0 x1 c a s := by
  intro l
  induction l with
  | nil => intro l' h; simp [findRemove] at h
  | cons r rs ih =>
    intro l' h
    rw [findRemove] at h
    by_cases hm : runMatch t x0 x1 c a r
    · rw [if_pos hm] at h
      exact ⟨[], r, rs, rfl, (Option.some.inj h).symm, hm, by simp⟩
    · rw [if_neg hm] at h
      cases hfr : findRemove t x0 x1 c a rs with
      | none => rw [hfr] at h; simp at h
      | some rs' =>
        rw [hfr] at h
        simp only [Option.map_some', Option.some.injEq] at h
        obtain ⟨pre, m, post, e1, e2, e3, e4⟩ := ih rs' hfr
        refine ⟨r :: pre, m, post, by rw [List.cons_append, e1], ?_, e3, ?_⟩
        · rw [← h, e2]; rfl
        · intro s hs
          rcases List.mem_cons.mp hs with rfl | hs
          · exact hm
          · exact e4 s hs

theorem findRemove_length (t x0 x1 : ℕ) (c : Color) (a : ℕ) (l l' : List Run)
    (h : findRemove t x0 x1 c a l = some l') : l'.length + 1 = l.length := by
  obtain ⟨pre, m, post, rfl, rfl, _, _⟩ := findRemove_some t x0 x1 c a l l' h
  simp
  omega

/-- The spec's search ignores a prefix whose rows are all below the target
height, now and at every later height. -/
theorem findRemove_append (t x0 x1 : ℕ) (c : Color) (a : ℕ) :
    ∀ pre post, (∀ s ∈ pre, ¬ runMatch t x0 x1 c a s) →
      findRemove t x0 x1 c a (pre ++ post) =
        (findRemove t x0 x1 c a post).map (pre ++ ·) := by
  intro pre
  induction pre with
  | nil =>
    intro post _
    rw [List.nil_append]
    cases findRemove t x0 x1 c a post <;> rfl
  | cons r rs ih =>
    intro post hpre
    rw [List.cons_append, findRemove, if_neg (hpre r (List.mem_cons_self r rs))]
    rw [ih post (fun s hs => hpre s (List.mem_cons_of_mem r hs))]
    cases findRemove t x0 x1 c a post <;> rfl

theorem specGrow_append (y x0 x1 : ℕ) (c : Color) (a : ℕ) :
    ∀ fuel h' pre post, (∀ s ∈ pre, s.row < y + h') →
      specGrow y x0 x1 c a fuel h' (pre ++ post) =
        ((specGrow y x0 x1 c a fuel h' post).1,
          pre ++ (specGrow y x0 x1 c a fuel h' post).2) := by
  intro fuel
  induction fuel with
  | zero => intro h' pre post _; simp [specGrow]
  | succ n ih =>
    intro h' pre post hpre
    rw [specGrow, specGrow]
    rw [findRemove_append (y + h') x0 x1 c a pre post
      (fun s hs hm => by have h1 := hpre s hs; have h2 := hm.1; omega)]
    cases hfp : findRemove (y + h') x0 x1 c a post with
    | none => rfl
    | some post' =>
      simp only [Option.map_some']
      exact ih (h' + 1) pre post' (fun s hs => by have := hpre s hs; omega)

/-- Key refinement step: on a row-sorted pending list, the spec's restarting
search computes exactly what the code's single forward scan computes. -/
theorem specGrow_eq_scanMerge (y x0 x1 : ℕ) (c : Color) (a : ℕ) :
    ∀ fuel (l : List Run) h, l.length ≤ fuel →
      List.Pairwise (fun r s => r.row ≤ s.row) l →
      specGrow y x0 x1 c a fuel h l = scanMerge y x0 x1 c a h l := by
  intro fuel
  induction fuel with
  | zero =>
    intro l h h1 _
    rw [List.length_eq_zero.mp (Nat.le_zero.mp h1)]
    simp [specGrow, scanMerge]
  | succ n ih =>
    intro l h hlen hsort
    cases l with
    | nil => simp [specGrow, scanMerge, findRemove]
    | cons r rs =>
      rw [specGrow, findRemove]
      by_cases hm : runMatch (y + h) x0 x1 c a r
      · rw [if_pos hm, scanMerge, if_pos hm]
        exact ih rs (h + 1) (by simpa using hlen) (List.pairwise_cons.mp hsort).2
      · rw [if_neg hm]
        cases hfr : findRemove (y + h) x0 x1 c a rs with
        | none =>
          have hnm : ∀ s ∈ r :: rs, ¬ runMatch (y + h) x0 x1 c a s := by
            intro s hs
            rcases List.mem_cons.mp hs with rfl | hs
            · exact hm
            · exact (findRemove_eq_none (y + h) x0 x1 c a rs).mp hfr s hs
          rw [scanMerge_of_forall_not y x0 x1 c a (r :: rs) h hnm]
          rfl
        | some rs₂ =>
          simp only [Option.map_some']
          obtain ⟨pre, m, post, heq, heq2, hmm, hpre⟩ :=
            findRemove_some (y + h) x0 x1 c a rs rs₂ hfr
          have hmrow : m.row = y + h := hmm.1
          have hrowr : r.row ≤ y + h := by
            have hmem : m ∈ rs := by
              rw [heq]; exact List.mem_append.mpr (Or.inr (List.mem_cons_self m post))
            have := (List.pairwise_cons.mp hsort).1 m hmem
            omega
          have hsort_rs := (List.pairwise_cons.mp hsort).2
          have hsort_split := hsort_rs
          rw [heq, List.pairwise_append] at hsort_split
          have hrowpre : ∀ s ∈ pre, s.row ≤ y + h := by
            intro s hs
            have := hsort_split.2.2 s hs m (List.mem_cons_self m post)
            omega
          have hsplit : r :: rs₂ = (r :: pre) ++ post := by
            rw [heq2]; rfl
          rw [hsplit, specGrow_append y x0 x1 c a n (h + 1) (r :: pre) post
            (by
              intro s hs
              rcases List.mem_cons.mp hs with rfl | hs
              · omega
              · have := hrowpre s hs; omega)]
          have hlenpost : post.length ≤ n := by
            have h1 : rs.length ≤ n := by simpa using hlen
            rw [heq] at h1
            simp at h1
            omega
          have hsortpost : List.Pairwise (fun r s => r.row ≤ s.row) post :=
            (List.pairwise_cons.mp hsort_split.2.1).2
          rw [ih post (h + 1) hlenpost hsortpost]
          rw [scanMerge, if_neg hm, heq,
            scanMerge_append y x0 x1 c a pre (m :: post) h hpre,
            scanMerge, if_pos hmm]
          rfl

/-- On a row-sorted run list, both merge loops produce identical rectangle
lists. -/
theorem mergeAux_eq_specMergeAux :
    ∀ fuel (l : List Run), l.length ≤ fuel →
      List.Pairwise (fun r s => r.row ≤ s.row) l →
      mergeAux fuel l = specMergeAux fuel l := by
  intro fuel
  induction fuel with
  | zero => intro l _ _; rfl
  | succ n ih =>
    intro l hlen hsort
    cases l with
    | nil => rfl
    | cons r rs =>
      rw [mergeAux, specMergeAux]
      rw [specGrow_eq_scanMerge r.row r.x0 r.x1 r.color r.alpha rs.length rs 1
        (le_refl _) (List.pairwise_cons.mp hsort).2]
      congr 1
      refine ih _ ?_ ?_
      · exact le_trans
          (scanMerge_sublist r.row r.x0 r.x1 r.color r.alpha rs 1).length_le
          (by simpa using hlen)
      · exact (List.pairwise_cons.mp hsort).2.sublist
          (scanMerge_sublist r.row r.x0 r.x1 r.color r.alpha rs 1)

/-! ### Concrete values used to instantiate the theorems -/

/-- Opaque red, the color of the spec's boundary examples. -/
def red : Color := (255, 0, 0)

/-- A 2×2 grid all of whose pixels are opaque red. -/
def redGrid2 : PixelGrid := ⟨2, 2, fun _ _ => some (red, 255)⟩

/-- A 3×3 grid with one transparent cell and two colors. -/
def mixedGrid : PixelGrid :=
  ⟨3, 3, fun y x =>
    if y = 0 ∧ x = 2 then none
    else if x ≤ 1 then some ((1, 2, 3), 128) else some ((9, 9, 9), 255)⟩

/-- A fully transparent 2×2 grid. -/
def clearGrid : PixelGrid := ⟨2, 2, fun _ _ => none⟩

/-- A small canonically ordered run list. -/
def runListW : List Run :=
  [⟨0, 0, 2, red, 255⟩, ⟨0, 3, 4, red, 255⟩, ⟨1, 0, 2, red, 255⟩]

/-- A concrete rectangle with fully opaque color. -/
def wRect : Rect := ⟨1, 2, 3, 4, red, 255⟩

/-- A concrete rectangle with translucent color. -/
def wRect128 : Rect := ⟨0, 0, 1, 1, red, 128⟩

/-- The empty file-system state. -/
def fs0 : FS := fun _ => none

/-- A conversion outcome where exactly the file `bad.png` raises. -/
def okExceptBad : List Char → Bool :=
  fun name => if name = "bad.png".toList then false else true

instance (r s : Run) : Decidable (runOrd r s) := by
  unfold runOrd; infer_instance

/-! ### The claims -/

/-- C1: for every input `PixelGrid`, the rectangles produced by `png2svg`
(horizontal run extraction followed by vertical merging) are pairwise
non-overlapping, the union of their footprints is exactly the set of
non-transparent pixel coordinates of the grid, and each rectangle covers
only pixels of its own `(color, opacity)`. -/
theorem pipeline_cover_exact (g : PixelGrid) :
    List.Pairwise (fun t u => ∀ q : ℕ × ℕ, ¬(rectMem t q ∧ rectMem u q))
      (pipeline g) ∧
    (∀ q : ℕ × ℕ, (∃ t ∈ pipeline g, rectMem t q) ↔ nonTransparent g q) ∧
    (∀ t ∈ pipeline g, ∀ q : ℕ × ℕ, rectMem t q →
      g.pix q.1 q.2 = some (t.color, t.alpha)) := by
  have hle : ∀ r ∈ extractRuns g, r.x0 ≤ r.x1 :=
    fun r hr => le_of_lt (extractRuns_mem g r hr).2.1
  refine ⟨?_, ?_, ?_⟩
  · exact mergeAux_disjoint _ _ hle (extractRuns_disjoint g)
  · intro q
    exact (mergeAux_cover _ _ (le_refl _) hle q).trans (extractRuns_cover g q).symm
  · intro t ht q hq
    obtain ⟨r, hr, hrq, hc, ha⟩ := mergeAux_colors _ _ hle t ht q hq
    have hp := (extractRuns_mem g r hr).2.2.2.1 q.2 hrq.2.1 hrq.2.2
    rw [hrq.1, hp, hc, ha]

/-- Witness for C1 at the concrete grid `mixedGrid`. -/
theorem pipeline_cover_exact_witness :
    (∃ t ∈ pipeline mixedGrid, rectMem t (0, 0)) ∧
    ¬(∃ t ∈ pipeline mixedGrid, rectMem t (0, 2)) := by
  have h := pipeline_cover_exact mixedGrid
  constructor
  · exact (h.2.1 (0, 0)).mpr (by decide)
  · intro hc
    have hn := (h.2.1 (0, 2)).mp hc
    revert hn
    decide

/-- C2: on a pending run list in canonical order (row ascending, then start
column ascending), the code's single forward scan — which pops a matching
run at row `y + height` without restarting from the front — finalizes
exactly the same rectangles, in the same order, as the spec's algorithm
that repeats the search over all remaining pending runs at each new
height. -/
theorem mergeRects_eq_specMerge (l : List Run) (hs : List.Pairwise runOrd l) :
    mergeRects l = specMerge l := by
  have hrow : List.Pairwise (fun r s => r.row ≤ s.row) l := by
    refine hs.imp ?_
    intro r s h
    rcases h with h | ⟨h1, _⟩
    · omega
    · omega
  exact mergeAux_eq_specMergeAux l.length l (le_refl _) hrow

/-- Witness for C2 at a concrete canonically ordered run list. -/
theorem mergeRects_eq_specMerge_witness :
    mergeRects runListW = specMerge runListW :=
  mergeRects_eq_specMerge runListW (by decide)

/-- C3: run extraction produces exactly the maximal horizontal runs of
identical `(color, opacity)`: all pixels of a run are non-transparent and
equal to its color and opacity, no run extends left or right, opacity-0
pixels belong to no run, the list is ordered by row and then by start
column, and every non-transparent cell is covered by a run. -/
theorem extractRuns_spec (g : PixelGrid) :
    (∀ r ∈ extractRuns g, ∀ col, r.x0 ≤ col → col < r.x1 →
      g.pix r.row col = some (r.color, r.alpha)) ∧
    (∀ r ∈ extractRuns g, r.x1 = g.width ∨
      g.pix r.row r.x1 ≠ some (r.color, r.alpha)) ∧
    (∀ r ∈ extractRuns g, r.x0 = 0 ∨
      g.pix r.row (r.x0 - 1) ≠ some (r.color, r.alpha)) ∧
    List.Pairwise runOrd (extractRuns g) ∧
    (∀ q : ℕ × ℕ, nonTransparent g q ↔ ∃ r ∈ extractRuns g, runMem r q) ∧
    (∀ img : RawImage, ∀ r ∈ extractRuns (buildGrid img), ∀ col,
      r.x0 ≤ col → col < r.x1 → (img.px r.row col).2.2.2 ≠ 0) := by
  refine ⟨fun r hr => (extractRuns_mem g r hr).2.2.2.1,
    fun r hr => (extractRuns_mem g r hr).2.2.2.2.1,
    fun r hr => (extractRuns_mem g r hr).2.2.2.2.2,
    extractRuns_ord g, extractRuns_cover g, ?_⟩
  intro img r hr col h1 h2 h0
  have hp := (extractRuns_mem (buildGrid img) r hr).2.2.2.1 col h1 h2
  simp [buildGrid, buildPix, h0] at hp

/-- Witness for C3 at the concrete grid `mixedGrid`. -/
theorem extractRuns_spec_witness :
    ∃ r ∈ extractRuns mixedGrid, runMem r (2, 0) :=
  ((extractRuns_spec mixedGrid).2.2.2.2.1 (2, 0)).mp (by decide)

/-- C4: for every rectangle and every integer scale `s ≥ 1`, the emitted
primitive has position `(x*s, y*s)` and size `(w*s + 0.5, h*s + 0.5)`:
every emitted coordinate is the scale-1 coordinate times `s`, and the
fixed `0.5` overlap is added after scaling, never before. -/
theorem emit_scale_linear (r : Rect) (s : ℕ) (_hs : 1 ≤ s) :
    (emitRect s r).x = (emitRect 1 r).x * s ∧
    (emitRect s r).y = (emitRect 1 r).y * s ∧
    (emitRect s r).x = (r.x : ℚ) * s ∧
    (emitRect s r).y = (r.y : ℚ) * s ∧
    (emitRect s r).w = (r.w : ℚ) * s + 1 / 2 ∧
    (emitRect s r).h = (r.h : ℚ) * s + 1 / 2 ∧
    (emitRect s r).w = ((emitRect 1 r).w - 1 / 2) * s + 1 / 2 ∧
    (emitRect s r).h = ((emitRect 1 r).h - 1 / 2) * s + 1 / 2 := by
  refine ⟨?_, ?_, ?_, ?_, ?_, ?_, ?_, ?_⟩ <;> simp [emitRect] <;> ring

/-- Witness for C4 at scale 3. -/
theorem emit_scale_linear_witness :
    (emitRect 3 wRect).x = (emitRect 1 wRect).x * 3 ∧
    (emitRect 3 wRect).w = (wRect.w : ℚ) * 3 + 1 / 2 :=
  ⟨(emit_scale_linear wRect 3 (by norm_num)).1,
   (emit_scale_linear wRect 3 (by norm_num)).2.2.2.2.1⟩

/-- C5: the emitted rectangle carries `fill-opacity` and `stroke-opacity`
exactly when its opacity is strictly below `1.0`, both then equal to that
opacity; a fully opaque rectangle carries neither attribute. -/
theorem emit_opacity_attrs (r : Rect) (s : ℕ) :
    ((emitRect s r).fillOpacity ≠ none ↔ opacityQ r.alpha < 1) ∧
    ((emitRect s r).strokeOpacity ≠ none ↔ opacityQ r.alpha < 1) ∧
    (opacityQ r.alpha < 1 →
      (emitRect s r).fillOpacity = some (opacityQ r.alpha) ∧
      (emitRect s r).strokeOpacity = some (opacityQ r.alpha)) ∧
    (opacityQ r.alpha = 1 →
      (emitRect s r).fillOpacity = none ∧
      (emitRect s r).strokeOpacity = none) := by
  by_cases h : opacityQ r.alpha < 1
  · refine ⟨by simp [emitRect, h], by simp [emitRect, h],
      fun _ => by simp [emitRect, h], fun he => ?_⟩
    rw [he] at h
    exact absurd h (lt_irrefl 1)
  · exact ⟨by simp [emitRect, h], by simp [emitRect, h],
      fun hc => absurd hc h, fun _ => by simp [emitRect, h]⟩

/-- Witness for C5 at a translucent and at a fully opaque rectangle. -/
theorem emit_opacity_attrs_witness :
    (emitRect 1 wRect128).fillOpacity = some (opacityQ 128) ∧
    (emitRect 1 wRect).fillOpacity = none :=
  ⟨((emit_opacity_attrs wRect128 1).2.2.1 (by norm_num [opacityQ, wRect128])).1,
   ((emit_opacity_attrs wRect 1).2.2.2 (by norm_num [opacityQ, wRect])).1⟩

/-- C6 as stated fails on the code: a write that fails after one character
leaves a truncated, non-empty, incomplete file at the destination — the
write is not atomic. -/
theorem write_truncated_cex :
    (writeDirect fs0 "out.svg".toList "ab".toList (some 1)).2 = false ∧
    (writeDirect fs0 "out.svg".toList "ab".toList (some 1)).1 "out.svg".toList
      = some "a".toList ∧
    some "a".toList ≠ (none : Option (List Char)) ∧
    "a".toList ≠ "ab".toList := by
  refine ⟨rfl, ?_, by decide, by decide⟩
  simp [writeDirect, fsUpdate, fs0]

/-- C6 amended: the code writes the document in place; a write failing after
`k` characters leaves exactly the first `k` characters at the destination,
while a completed write leaves the whole document. -/
theorem write_leaves_truncated (fs : FS) (path content : List Char) (k : ℕ) :
    (writeDirect fs path content (some k)).2 = false ∧
    (writeDirect fs path content (some k)).1 path = some (content.take k) ∧
    (writeDirect fs path content none).2 = true ∧
    (writeDirect fs path content none).1 path = some content := by
  refine ⟨rfl, ?_, rfl, ?_⟩ <;> simp [writeDirect, fsUpdate]

/-- Witness for the amended C6. -/
theorem write_leaves_truncated_witness :
    (writeDirect fs0 "o.svg".toList "ab".toList (some 1)).1 "o.svg".toList
      = some ("ab".toList.take 1) :=
  (write_leaves_truncated fs0 "o.svg".toList "ab".toList 1).2.1

/-- C7 as stated fails on the code: when the conversion of `bad.png` raises,
the later file `good2.png` is never processed — the whole batch run is
aborted, not just the failing file's conversion. -/
theorem batch_abort_cex :
    processFiles okExceptBad
      ["good1.png".toList, "bad.png".toList, "good2.png".toList]
      = ([ "good1.png".toList ], false) ∧
    "good2.png".toList ∉
      (processFiles okExceptBad
        ["good1.png".toList, "bad.png".toList, "good2.png".toList]).1 := by
  constructor
  · rfl
  · decide

/-- C7 amended: in batch mode an uncaught decode or encode failure on one
input aborts the entire directory walk — the files before it are
processed, the failing file and every file after it are not. -/
theorem batch_abort (ok : List Char → Bool) (f : List Char)
    (fs : List (List Char)) (hf : ok f = false) :
    ∀ pre, (∀ p ∈ pre, ok p = true) →
      processFiles ok (pre ++ f :: fs) = (pre, false) := by
  intro pre
  induction pre with
  | nil => intro _; simp [processFiles, hf]
  | cons p ps ih =>
    intro hpre
    have hp : ok p = true := hpre p (List.mem_cons_self p ps)
    rw [List.cons_append, processFiles, if_pos hp,
      ih (fun q hq => hpre q (List.mem_cons_of_mem p hq))]

/-- Witness for the amended C7. -/
theorem batch_abort_witness :
    processFiles okExceptBad ["a.png".toList, "bad.png".toList]
      = ([ "a.png".toList ], false) :=
  batch_abort okExceptBad "bad.png".toList [] (by decide)
    ["a.png".toList] (by decide)

/-- C8: a 2×2 grid of opaque red pixels yields exactly the single rectangle
`(0, 0, 2, 2, red, 1.0)`: the two horizontal runs of length 2 merge
vertically (alpha 255 is opacity `1.0`). -/
theorem redGrid2_single_rect :
    pipeline redGrid2 = [⟨0, 0, 2, 2, red, 255⟩] ∧ opacityQ 255 = 1 := by
  constructor
  · rfl
  · norm_num [opacityQ]

/-- C9: every extracted run is non-empty, every merged rectangle has width
and height at least 1, and a grid with no non-transparent pixel yields an
empty run list and an empty rectangle list. -/
theorem pipeline_size_invariants (g : PixelGrid) :
    (∀ r ∈ extractRuns g, r.x0 < r.x1) ∧
    (∀ t ∈ pipeline g, 1 ≤ t.w ∧ 1 ≤ t.h) ∧
    ((∀ q : ℕ × ℕ, ¬ nonTransparent g q) →
      extractRuns g = [] ∧ pipeline g = []) := by
  refine ⟨fun r hr => (extractRuns_mem g r hr).2.1, ?_, ?_⟩
  · exact mergeAux_sizes _ _ (fun r hr => (extractRuns_mem g r hr).2.1)
  · intro hg
    have hnil : extractRuns g = [] := by
      rw [List.eq_nil_iff_forall_not_mem]
      intro r hr
      obtain ⟨hrow, hx, hx1, hpix, _⟩ := extractRuns_mem g r hr
      refine hg (r.row, r.x0) ⟨hrow, by omega, ?_⟩
      rw [hpix r.x0 (le_refl _) hx]
      simp
    refine ⟨hnil, ?_⟩
    rw [pipeline, mergeRects, hnil]
    rfl

/-- Witness for C9 at the fully transparent grid. -/
theorem pipeline_size_invariants_witness :
    extractRuns clearGrid = [] ∧ pipeline clearGrid = [] :=
  (pipeline_size_invariants clearGrid).2.2
    (fun _ hq => hq.2.2 rfl)

/-- C10: a file whose lowercased name ends with `.png` is converted, with
the destination derived by replacing every occurrence of `.png` and
`.PNG` by `.svg`; hence a mixed-case `.Png` file is converted but its
output path keeps the original non-`.svg` extension, and a name with two
`.png` occurrences has both replaced. -/
theorem dest_replace_behavior :
    (∀ name : List Char, List.isSuffixOf ".png".toList (lowerName name) = true →
      handleFile name = FileAction.convert (svgName name)) ∧
    handleFile "a.Png".toList = FileAction.convert "a.Png".toList ∧
    List.isSuffixOf ".svg".toList "a.Png".toList = false ∧
    handleFile "x.png.png".toList = FileAction.convert "x.svg.svg".toList := by
  refine ⟨?_, by decide, by decide, by decide⟩
  intro name h
  rw [handleFile, if_pos (show isPngName name = true from h)]

/-- Witness for C10 at an upper-case extension. -/
theorem dest_replace_behavior_witness :
    handleFile "b.PNG".toList = FileAction.convert "b.svg".toList :=
  dest_replace_behavior.1 "b.PNG".toList (by decide)

end Png2Svg
